import Mathlib

/-!
Verification development for the bakery anomaly-detection pipeline.

Shallow embedding of the two core source units:
  * `src/models/train_baseline.py` — `time_splits`, the fold loop of
    `run_baselines` and its z-score baseline;
  * `src/analysis/feature_engineer_dispatch.py` — `rolling_group_features`,
    `add_route_zscore` and `main`.

Timestamps are modelled as natural-number seconds; a calendar date is the
timestamp divided by the number of seconds in a day (`pandas` `.dt.date`).
A missing value (`NaT` / `NaN`) is `Option.none`.  Rational numbers stand
for the float delay metric; the standard-deviation columns, which involve a
square root, are expressed as real-valued views over the rational data.
-/

namespace Bakery

/-- An event row: grouping keys `route_id` / `plant_id`, the parsed
`timestamp` (`none` = `NaT`) and `dispatch_delay_minutes` (`none` = `NaN`). -/
structure Event where
  route : String
  plant : String
  ts : Option Nat
  delay : Option ℚ
deriving DecidableEq

/-- Order on optional timestamps used by `sort_values`: `NaT` sorts last
(`na_position='last'`). -/
def oLe : Option Nat → Option Nat → Prop
  | some a, some b => a ≤ b
  | some _, none => True
  | none, some _ => False
  | none, none => True

instance : DecidableRel oLe := fun a b =>
  match a, b with
  | some a, some b => inferInstanceAs (Decidable (a ≤ b))
  | some _, none => isTrue trivial
  | none, some _ => isFalse (fun h => h)
  | none, none => isTrue trivial

instance : IsTotal (Option Nat) oLe where
  total a b := by
    cases a <;> cases b
    · exact Or.inl trivial
    · exact Or.inr trivial
    · exact Or.inl trivial
    · exact Nat.le_total _ _

instance : IsTrans (Option Nat) oLe where
  trans a b c hab hbc := by
    cases a <;> cases b <;> cases c <;> (simp_all [oLe]; try omega)

/-- `df.sort_values('timestamp')` compares events by timestamp, `NaT` last. -/
def evLe (e f : Event) : Prop := oLe e.ts f.ts

instance : DecidableRel evLe := fun e f => inferInstanceAs (Decidable (oLe e.ts f.ts))

instance : IsTotal Event evLe where
  total e f := IsTotal.total (r := oLe) e.ts f.ts

instance : IsTrans Event evLe where
  trans e f g hef hfg := IsTrans.trans (r := oLe) e.ts f.ts g.ts hef hfg

/-- `df.sort_values('timestamp')` (stable sort refinement). -/
def sortByTs (evs : List Event) : List Event := List.insertionSort evLe evs

/-- Seconds per calendar day. -/
def day : Nat := 86400

/-- `df['timestamp'].dt.date`: the calendar date of an event, `none` for `NaT`. -/
def dateKey (e : Event) : Option Nat := e.ts.map (fun t => t / day)

/-- Helper for `uniqueList`: `seen` holds the values already emitted. -/
def uniqueAux {α : Type} [DecidableEq α] : List α → List α → List α
  | _, [] => []
  | seen, a :: as => if a ∈ seen then uniqueAux seen as else a :: uniqueAux (a :: seen) as

/-- `pandas` `Series.unique()`: first occurrences, in order of appearance. -/
def uniqueList {α : Type} [DecidableEq α] (l : List α) : List α := uniqueAux [] l

theorem uniqueAux_sublist {α : Type} [DecidableEq α] :
    ∀ (seen l : List α), List.Sublist (uniqueAux seen l) l
  | _, [] => List.Sublist.refl _
  | seen, a :: as => by
    rw [uniqueAux]
    split
    · exact (uniqueAux_sublist seen as).cons a
    · exact List.Sublist.cons₂ a (uniqueAux_sublist (a :: seen) as)

theorem uniqueList_sublist {α : Type} [DecidableEq α] (l : List α) :
    List.Sublist (uniqueList l) l := uniqueAux_sublist [] l

theorem mem_uniqueAux {α : Type} [DecidableEq α] {x : α} :
    ∀ {seen l : List α}, x ∈ uniqueAux seen l → x ∉ seen
  | _, [], h => by simp [uniqueAux] at h
  | seen, a :: as, h => by
    rw [uniqueAux] at h
    split at h
    · exact mem_uniqueAux h
    · rcases List.mem_cons.mp h with rfl | h2
      · assumption
      · intro hx
        exact mem_uniqueAux h2 (List.mem_cons_of_mem a hx)

theorem uniqueAux_nodup {α : Type} [DecidableEq α] :
    ∀ (seen l : List α), (uniqueAux seen l).Nodup
  | _, [] => List.nodup_nil
  | seen, a :: as => by
    rw [uniqueAux]
    split
    · exact uniqueAux_nodup seen as
    · refine List.nodup_cons.mpr ⟨?_, uniqueAux_nodup (a :: seen) as⟩
      intro hmem
      exact mem_uniqueAux hmem (List.mem_cons_self a seen)

theorem uniqueList_nodup {α : Type} [DecidableEq α] (l : List α) :
    (uniqueList l).Nodup := uniqueAux_nodup [] l

/-- Sizes of the pieces of `np.array_split(arr, n)` for an array of length
`l`: the first `l % n` pieces have size `l / n + 1`, the rest `l / n`. -/
def sizesFor (l n : Nat) : List Nat :=
  (List.range n).map (fun i => if i < l % n then l / n + 1 else l / n)

/-- Cut a list into consecutive pieces of the given sizes. -/
def splitBySizes {α : Type} : List Nat → List α → List (List α)
  | [], _ => []
  | s :: ss, l => l.take s :: splitBySizes ss (l.drop s)

/-- `np.array_split(l, n)`. -/
def arraySplit {α : Type} (l : List α) (n : Nat) : List (List α) :=
  splitBySizes (sizesFor l.length n) l

theorem length_splitBySizes {α : Type} :
    ∀ (ss : List Nat) (l : List α), (splitBySizes ss l).length = ss.length
  | [], _ => rfl
  | _ :: ss, l => by simp [splitBySizes, length_splitBySizes ss]

theorem length_arraySplit {α : Type} (l : List α) (n : Nat) :
    (arraySplit l n).length = n := by
  simp [arraySplit, length_splitBySizes, sizesFor]

theorem flatten_take_splitBySizes {α : Type} :
    ∀ (ss : List Nat) (l : List α) (m : Nat),
      ((splitBySizes ss l).take m).flatten = l.take ((ss.take m).sum)
  | [], l, m => by simp [splitBySizes]
  | s :: ss, l, 0 => by simp
  | s :: ss, l, m + 1 => by
    simp only [splitBySizes, List.take_succ_cons, List.flatten_cons, List.sum_cons]
    rw [flatten_take_splitBySizes ss (l.drop s) m, List.take_add]

theorem getD_splitBySizes {α : Type} :
    ∀ (ss : List Nat) (l : List α) (i : Nat),
      (splitBySizes ss l).getD i [] = (l.drop ((ss.take i).sum)).take (ss.getD i 0)
  | [], l, i => by simp [splitBySizes]
  | s :: ss, l, 0 => by simp [splitBySizes]
  | s :: ss, l, i + 1 => by
    simp only [splitBySizes, List.getD_cons_succ, List.take_succ_cons, List.sum_cons]
    rw [getD_splitBySizes ss (l.drop s) i, List.drop_drop]

/-- A train/test fold. -/
structure Fold where
  train : List Event
  test : List Event
deriving DecidableEq

/-- The `n_splits` reduction of `time_splits`:
`if len(dates) < n_splits: n_splits = max(2, len(dates))`. -/
def splitK (d n : Nat) : Nat := if d < n then max 2 d else n

/-- `df.sort_values(time_col); dates = df[time_col].dt.date.unique()`. -/
def uniqueDatesOf (evs : List Event) : List (Option Nat) :=
  uniqueList ((sortByTs evs).map dateKey)

/-- `date_segments = np.array_split(dates, n_splits)` (after reduction). -/
def dateSegs (evs : List Event) (n : Nat) : List (List (Option Nat)) :=
  arraySplit (uniqueDatesOf evs) (splitK (uniqueDatesOf evs).length n)

/-- One iteration of the date-segmented loop of `time_splits`: train on the
dates of segments `0..i`, test on segment `i+1`, skipping the fold when
either side is empty. -/
def foldAt (evs : List Event) (n : Nat) (i : Nat) : Option Fold :=
  let sorted := sortByTs evs
  let trainD := ((dateSegs evs n).take (i + 1)).flatten
  let testD := (dateSegs evs n).getD (i + 1) []
  let tr := sorted.filter (fun e => decide (dateKey e ∈ trainD))
  let te := sorted.filter (fun e => decide (dateKey e ∈ testD))
  if tr.isEmpty || te.isEmpty then none else some ⟨tr, te⟩

/-- The row-index fallback of `time_splits` when the `timestamp` column is
absent: `np.array_split` the rows, emit every expanding fold unconditionally. -/
def fallbackSplits (evs : List Event) (n : Nat) : List Fold :=
  (List.range ((arraySplit evs n).length - 1)).map (fun i =>
    ⟨((arraySplit evs n).take (i + 1)).flatten, (arraySplit evs n).getD (i + 1) []⟩)

/-- `time_splits(df, n_splits, time_col)`.  `hasTsCol` states whether the
`timestamp` column is present in the frame. -/
def timeSplits (hasTsCol : Bool) (evs : List Event) (n : Nat) : List Fold :=
  if hasTsCol then
    (List.range ((dateSegs evs n).length - 1)).filterMap (foldAt evs n)
  else fallbackSplits evs n

theorem oLe_dateKey {a b : Option Nat} (h : oLe a b) :
    oLe (a.map (fun t => t / day)) (b.map (fun t => t / day)) := by
  cases a <;> cases b <;> simp_all [oLe]
  exact Nat.div_le_div_right h

/-- The strict date order carried by the deduplicated date list. -/
theorem pairwise_uniqueDates (evs : List Event) :
    List.Pairwise (fun a b => oLe a b ∧ a ≠ b) (uniqueDatesOf evs) := by
  have hs : List.Sorted evLe (sortByTs evs) := List.sorted_insertionSort evLe evs
  have hmap : List.Pairwise oLe ((sortByTs evs).map dateKey) := by
    refine hs.map dateKey ?_
    intro e f hef
    exact oLe_dateKey hef
  have hple : List.Pairwise oLe (uniqueDatesOf evs) :=
    List.Pairwise.sublist (uniqueList_sublist _) hmap
  exact hple.and (uniqueList_nodup _)

theorem pairwise_take_drop {α : Type} {R : α → α → Prop} {l : List α}
    (h : l.Pairwise R) (m : Nat) :
    ∀ a ∈ l.take m, ∀ b ∈ l.drop m, R a b := by
  have h2 : (l.take m ++ l.drop m).Pairwise R := by
    rw [List.take_append_drop]; exact h
  exact (List.pairwise_append.mp h2).2.2

/-- C1: for every fold emitted by the date-segmented branch of `time_splits`
(timestamp column present), every train event that carries a timestamp is
strictly earlier than every timestamp carried by a test event of the same
fold: `max(train timestamps) < min(test timestamps)`. -/
theorem c1_date_splitter_no_leakage
    (evs : List Event) (n : Nat) (f : Fold) (hf : f ∈ timeSplits true evs n)
    (e : Event) (he : e ∈ f.train) (t : Nat) (het : e.ts = some t)
    (e' : Event) (he' : e' ∈ f.test) (t' : Nat) (het' : e'.ts = some t') :
    t < t' := by
  rw [timeSplits, if_pos rfl] at hf
  obtain ⟨i, _, hsome⟩ := List.mem_filterMap.mp hf
  simp only [foldAt] at hsome
  split at hsome
  · exact absurd hsome (by simp)
  · obtain rfl : f = _ := (Option.some.inj hsome).symm
    simp only at he he'
    set dates := uniqueDatesOf evs with hdates
    set k := splitK dates.length n with hk
    set ss := sizesFor dates.length k with hss
    set M := ((ss.take (i + 1)).sum) with hM
    have hsegs : dateSegs evs n = splitBySizes ss dates := rfl
    have htrainD : ((dateSegs evs n).take (i + 1)).flatten = dates.take M := by
      rw [hsegs, flatten_take_splitBySizes]
    have htestD : (dateSegs evs n).getD (i + 1) [] =
        (dates.drop M).take (ss.getD (i + 1) 0) := by
      rw [hsegs, getD_splitBySizes]
    have hememb := List.mem_filter.mp he
    have he'memb := List.mem_filter.mp he'
    have hearly : dateKey e ∈ dates.take M := by
      have := of_decide_eq_true hememb.2
      rwa [htrainD] at this
    have hlate : dateKey e' ∈ dates.drop M := by
      have := of_decide_eq_true he'memb.2
      rw [htestD] at this
      exact List.take_subset _ _ this
    have hR := pairwise_take_drop (pairwise_uniqueDates evs) M _ hearly _ hlate
    rw [dateKey, dateKey, het, het'] at hR
    simp only [Option.map_some'] at hR
    have hle : t / day ≤ t' / day := hR.1
    have hne : t / day ≠ t' / day := fun hd => hR.2 (by rw [hd])
    have hdiv : t / day < t' / day := lt_of_le_of_ne hle hne
    by_contra hcon
    push_neg at hcon
    exact absurd (Nat.div_le_div_right (c := day) hcon) (not_le.mpr hdiv)

def W1a : Event := ⟨"A", "P", some 0, some 1⟩

def W1b : Event := ⟨"A", "P", some day, some 2⟩

/-- Witness for C1: a two-event, two-date dataset; the emitted fold trains on
the first date and tests on the second, and the theorem yields `0 < day`. -/
theorem c1_date_splitter_no_leakage_witness :
    (⟨[W1a], [W1b]⟩ : Fold) ∈ timeSplits true [W1a, W1b] 2 ∧ 0 < day :=
  ⟨by decide, c1_date_splitter_no_leakage [W1a, W1b] 2 ⟨[W1a], [W1b]⟩ (by decide)
    W1a (by decide) 0 rfl W1b (by decide) day rfl⟩

theorem uniqueAux_map_some :
    ∀ (l seen : List Nat),
      uniqueAux (seen.map some) (l.map some) = (uniqueAux seen l).map some
  | [], _ => rfl
  | a :: as, seen => by
    rw [List.map_cons, uniqueAux, uniqueAux]
    by_cases h : a ∈ seen
    · rw [if_pos h, if_pos (List.mem_map_of_mem some h)]
      exact uniqueAux_map_some as seen
    · have h2 : some a ∉ seen.map some := by
        intro hc
        obtain ⟨b, hb, hba⟩ := List.mem_map.mp hc
        cases Option.some.inj hba
        exact h hb
      rw [if_neg h, if_neg h2, List.map_cons]
      congr 1
      exact uniqueAux_map_some as (a :: seen)

/-- The distinct calendar dates carried by parseable timestamps, in
chronological order — the claim's notion of "distinct calendar dates",
which does not count unparseable rows. -/
def calendarDates (evs : List Event) : List Nat :=
  uniqueList ((sortByTs evs).filterMap (fun e => e.ts.map (fun t => t / day)))

theorem map_dateKey_all_some :
    ∀ (l : List Event), (∀ e ∈ l, e.ts ≠ none) →
      l.map dateKey = ((l.filterMap (fun e => e.ts.map (fun t => t / day))).map some)
  | [], _ => rfl
  | e :: es, h => by
    cases hts : e.ts with
    | none => exact absurd hts (h e (List.mem_cons_self e es))
    | some t =>
      have ih := map_dateKey_all_some es (fun x hx => h x (List.mem_cons_of_mem e hx))
      simp only [List.map_cons, List.filterMap_cons, hts, Option.map_some', dateKey]
      rw [ih]

/-- When every timestamp parses, the date list the code segments is
exactly the distinct calendar dates (no `NaT` pseudo-date). -/
theorem uniqueDatesOf_all_some (evs : List Event) (h : ∀ e ∈ evs, e.ts ≠ none) :
    uniqueDatesOf evs = (calendarDates evs).map some := by
  have hsorted : ∀ e ∈ sortByTs evs, e.ts ≠ none := fun e he =>
    h e ((List.perm_insertionSort evLe evs).subset he)
  rw [uniqueDatesOf, map_dateKey_all_some _ hsorted, calendarDates, uniqueList, uniqueList]
  exact uniqueAux_map_some _ []

def W6a : Event := ⟨"A", "P", some 0, some 1⟩

def W6b : Event := ⟨"A", "P", some day, some 1⟩

def W6c : Event := ⟨"A", "P", some (2 * day), some 1⟩

def W6n : Event := ⟨"A", "P", none, some 1⟩

/-- C6 counterexample: a dataset spanning 3 distinct calendar dates plus
one row whose timestamp does not parse.  `dt.date.unique()` keeps a `NaT`
pseudo-date, so the list the code segments has 4 entries, `n_splits = 10`
is reduced to 4 (not the claimed `max(2, 3) = 3`) and 3 folds are emitted —
the last testing the unparseable row — violating the claimed bound of at
most 2 folds. -/
theorem c6_counterexample :
    calendarDates [W6a, W6b, W6c, W6n] = [0, 1, 2] ∧
    (uniqueDatesOf [W6a, W6b, W6c, W6n]).length = 4 ∧
    (timeSplits true [W6a, W6b, W6c, W6n] 10).length = 3 ∧
    ¬ ((3 : Nat) ≤ 2) :=
  ⟨by decide, by decide, by decide, by decide⟩

/-- C6 (amended): the list `time_splits` segments is `dt.date.unique()` of
the sorted frame, which carries a `NaT` pseudo-date whenever some timestamp
fails to parse; `n_splits` is reduced to `max(2, len(that list))`
(`splitK`), the list is split into that many contiguous segments, and at
most `k − 1` expanding-window folds are emitted, fold `i` training on the
dates of segments `0..i` and testing on segment `i+1`.  Only when every
timestamp parses does the reduction use the distinct-calendar-date count:
such a dataset spanning 3 distinct dates emits at most 2 folds under
`n_splits = 10`. -/
theorem c6_split_reduction :
    (∀ (evs : List Event) (n : Nat),
      (timeSplits true evs n).length ≤ splitK (uniqueDatesOf evs).length n - 1) ∧
    (∀ (evs : List Event) (n : Nat) (f : Fold), f ∈ timeSplits true evs n →
      ∃ i, i < splitK (uniqueDatesOf evs).length n - 1 ∧
        f.train = (sortByTs evs).filter
          (fun e => decide (dateKey e ∈ ((dateSegs evs n).take (i + 1)).flatten)) ∧
        f.test = (sortByTs evs).filter
          (fun e => decide (dateKey e ∈ (dateSegs evs n).getD (i + 1) [])) ∧
        f.train ≠ [] ∧ f.test ≠ []) ∧
    (∀ evs : List Event, (∀ e ∈ evs, e.ts ≠ none) →
      (calendarDates evs).length = 3 → (timeSplits true evs 10).length ≤ 2) := by
  have hlen : ∀ (evs : List Event) (n : Nat),
      (timeSplits true evs n).length ≤ splitK (uniqueDatesOf evs).length n - 1 := by
    intro evs n
    rw [timeSplits, if_pos rfl]
    calc ((List.range ((dateSegs evs n).length - 1)).filterMap (foldAt evs n)).length
        ≤ (List.range ((dateSegs evs n).length - 1)).length :=
          List.length_filterMap_le _ _
      _ = splitK (uniqueDatesOf evs).length n - 1 := by
          rw [List.length_range, dateSegs, length_arraySplit]
  refine ⟨hlen, ?_, ?_⟩
  · intro evs n f hf
    rw [timeSplits, if_pos rfl] at hf
    obtain ⟨i, hi, hsome⟩ := List.mem_filterMap.mp hf
    refine ⟨i, ?_, ?_⟩
    · have := List.mem_range.mp hi
      rwa [dateSegs, length_arraySplit] at this
    · simp only [foldAt] at hsome
      split at hsome
      · exact absurd hsome (by simp)
      · obtain rfl : f = _ := (Option.some.inj hsome).symm
        rename_i hne
        rw [Bool.or_eq_true, not_or] at hne
        refine ⟨rfl, rfl, ?_, ?_⟩
        · exact fun h0 => hne.1 (List.isEmpty_iff.mpr h0)
        · exact fun h0 => hne.2 (List.isEmpty_iff.mpr h0)
  · intro evs hsome h3
    have hb := hlen evs 10
    rw [uniqueDatesOf_all_some evs hsome, List.length_map, h3] at hb
    simpa [splitK] using hb

/-- Witness for C6's amended theorem: the all-parseable three-date dataset
instantiates the reduction bound, and the first emitted fold instantiates
the fold-structure clause. -/
theorem c6_split_reduction_witness :
    ((∀ e ∈ [W6a, W6b, W6c], e.ts ≠ none) ∧
      (calendarDates [W6a, W6b, W6c]).length = 3 ∧
      (timeSplits true [W6a, W6b, W6c] 10).length ≤ 2) ∧
    ((⟨[W6a], [W6b]⟩ : Fold) ∈ timeSplits true [W6a, W6b, W6c] 10 ∧
      ∃ i, i < splitK (uniqueDatesOf [W6a, W6b, W6c]).length 10 - 1 ∧
        (⟨[W6a], [W6b]⟩ : Fold).train = (sortByTs [W6a, W6b, W6c]).filter
          (fun e => decide (dateKey e ∈ ((dateSegs [W6a, W6b, W6c] 10).take (i + 1)).flatten)) ∧
        (⟨[W6a], [W6b]⟩ : Fold).test = (sortByTs [W6a, W6b, W6c]).filter
          (fun e => decide (dateKey e ∈ (dateSegs [W6a, W6b, W6c] 10).getD (i + 1) [])) ∧
        (⟨[W6a], [W6b]⟩ : Fold).train ≠ [] ∧ (⟨[W6a], [W6b]⟩ : Fold).test ≠ []) :=
  ⟨⟨by decide, by decide,
      c6_split_reduction.2.2 [W6a, W6b, W6c] (by decide) (by decide)⟩,
    by decide, c6_split_reduction.2.1 [W6a, W6b, W6c] 10 ⟨[W6a], [W6b]⟩ (by decide)⟩

def W9 : Event := ⟨"A", "P", none, some 1⟩

/-- C9 counterexample: a dataset whose timestamp column is present but whose
single timestamp does not parse (`NaT`).  The claim says the splitter
degrades to row-index chunks, which here would emit the fold
`⟨[W9], []⟩`; the code's date-segmented branch instead emits no fold. -/
theorem c9_counterexample :
    timeSplits true [W9] 2 = [] ∧ fallbackSplits [W9] 2 = [⟨[W9], []⟩] ∧
    ([] : List Fold) ≠ [(⟨[W9], []⟩ : Fold)] :=
  ⟨by decide, by decide, by decide⟩

/-- C9 (amended): the row-chunk fallback runs only when the timestamp column
is absent; it then emits `n − 1` expanding folds unconditionally, each train
set and each train-plus-test set being a row prefix.  When the column is
present but no event's timestamp parses, the date-segmented loop emits no
folds at all. -/
theorem c9_fallback_semantics :
    (∀ (evs : List Event) (n : Nat),
      (timeSplits false evs n).length = n - 1 ∧
      ∀ f ∈ timeSplits false evs n,
        ∃ a b, f.train = evs.take a ∧ f.train ++ f.test = evs.take b) ∧
    (∀ (evs : List Event) (n : Nat), 2 ≤ n → (∀ e ∈ evs, e.ts = none) →
      timeSplits true evs n = []) := by
  constructor
  · intro evs n
    constructor
    · simp [timeSplits, fallbackSplits, length_arraySplit]
    · intro f hf
      simp only [timeSplits, Bool.false_eq_true, if_false, fallbackSplits] at hf
      obtain ⟨i, _, rfl⟩ := List.mem_map.mp hf
      refine ⟨((sizesFor evs.length n).take (i + 1)).sum,
        ((sizesFor evs.length n).take (i + 1)).sum +
          (sizesFor evs.length n).getD (i + 1) 0, ?_, ?_⟩
      · exact flatten_take_splitBySizes _ _ _
      · simp only [arraySplit]
        rw [flatten_take_splitBySizes, getD_splitBySizes]
        exact (List.take_add evs _ _).symm
  · intro evs n hn hall
    have hallkeys : ∀ x ∈ (sortByTs evs).map dateKey, x = (none : Option Nat) := by
      intro x hx
      obtain ⟨e, he, rfl⟩ := List.mem_map.mp hx
      rw [dateKey, hall e ((List.perm_insertionSort evLe evs).subset he)]
      rfl
    have hdates : uniqueDatesOf evs = [] ∨ uniqueDatesOf evs = [none] := by
      rw [uniqueDatesOf]
      cases hL : (sortByTs evs).map dateKey with
      | nil => exact Or.inl rfl
      | cons a rest =>
        right
        have ha : a = none := hallkeys a (hL ▸ List.mem_cons_self a rest)
        subst ha
        rw [uniqueList, uniqueAux, if_neg (List.not_mem_nil _)]
        have : uniqueAux [(none : Option Nat)] rest = [] := by
          have hrest : ∀ x ∈ rest, x = (none : Option Nat) := by
            intro x hx
            exact hallkeys x (hL ▸ List.mem_cons_of_mem _ hx)
          clear hL
          induction rest with
          | nil => rfl
          | cons b bs ih =>
            rw [uniqueAux, if_pos]
            · exact ih (fun x hx => hrest x (List.mem_cons_of_mem _ hx))
            · rw [hrest b (List.mem_cons_self b bs)]
              exact List.mem_cons_self _ _
        rw [this]
    have hempty : ∀ i, foldAt evs n i = none := by
      intro i
      rcases hdates with hd | hd
      · have hsegs : dateSegs evs n = [[], []] := by
          rw [dateSegs, hd]
          have hk : splitK (0 : Nat) n = 2 := by
            rw [splitK, if_pos (by omega)]
            rfl
          simp only [List.length_nil, hk]
          decide
        have hflat : (((dateSegs evs n).take (i + 1)).flatten) = [] := by
          rw [hsegs]
          cases i <;> simp
        have htr : (sortByTs evs).filter
            (fun e => decide (dateKey e ∈ ((dateSegs evs n).take (i + 1)).flatten)) = [] := by
          rw [hflat]
          simp
        simp only [foldAt]
        rw [htr]
        simp
      · have hsegs : dateSegs evs n = [[none], []] := by
          rw [dateSegs, hd]
          have hk : splitK (1 : Nat) n = 2 := by
            rw [splitK, if_pos (by omega)]
            rfl
          simp only [List.length_cons, List.length_nil, hk]
          decide
        have hget : (dateSegs evs n).getD (i + 1) [] = [] := by
          rw [hsegs]
          cases i <;> simp
        have hte : (sortByTs evs).filter
            (fun e => decide (dateKey e ∈ (dateSegs evs n).getD (i + 1) [])) = [] := by
          rw [hget]
          simp
        simp only [foldAt]
        rw [hte]
        simp
    rw [timeSplits, if_pos rfl]
    refine List.eq_nil_iff_forall_not_mem.mpr ?_
    intro f hf
    obtain ⟨i, _, hsome⟩ := List.mem_filterMap.mp hf
    rw [hempty i] at hsome
    exact absurd hsome (by simp)

/-- Witness for C9's amended theorem: one untimestamped event; the fallback
branch emits one (degenerate) fold with a prefix train set, and the
date branch emits none. -/
theorem c9_fallback_semantics_witness :
    ((timeSplits false [W9] 2).length = 2 - 1 ∧
      ∃ a b, (⟨[W9], []⟩ : Fold).train = [W9].take a ∧
        (⟨[W9], []⟩ : Fold).train ++ (⟨[W9], []⟩ : Fold).test = [W9].take b) ∧
    timeSplits true [W9] 2 = [] :=
  ⟨⟨(c9_fallback_semantics.1 [W9] 2).1,
      (c9_fallback_semantics.1 [W9] 2).2 ⟨[W9], []⟩ (by decide)⟩,
    c9_fallback_semantics.2 [W9] 2 (by decide) (by decide)⟩

/-! ### `rolling_group_features` (feature_engineer_dispatch.py)

Per group (`groupby(group_col)` over the rows with a parseable timestamp),
the code sorts by timestamp, rolls a trailing time window
(`rolling(w, min_periods=1)`, whose default `closed='right'` makes the
window `(t − w, t]`), aggregates `mean/median/std/count` of
`dispatch_delay_minutes`, and maps the results back by timestamp
(`reindex`, which raises on a duplicate timestamp index).  `NaT` rows keep
the initialisation values: `NaN` for mean/median/std and `0` for count.
A row of the result frame is represented by the window's non-null delay
list (`vals`); the four cells are views of it mirroring the aggregation
and `fillna` steps. -/

/-- Mean of the non-null values (`pandas` skip-NaN mean); the division by a
zero length is only reached behind emptiness guards. -/
def meanVal (l : List ℚ) : ℚ := l.sum / l.length

/-- `pandas` mean as an optional value: `NaN` on an empty list. -/
def meanOpt (l : List ℚ) : Option ℚ := if l.isEmpty then none else some (meanVal l)

/-- Sum of squared deviations from the mean. -/
def sqDevSum (l : List ℚ) : ℚ := (l.map (fun x => (x - meanVal l) ^ 2)).sum

/-- `pandas` sample variance (`ddof=1`): squared deviations over `n − 1`.
Only used behind `2 ≤ n` guards. -/
def svar (l : List ℚ) : ℚ := sqDevSum l / ((l.length : ℚ) - 1)

/-- Population variance: squared deviations over `n`. -/
def popVar (l : List ℚ) : ℚ := sqDevSum l / (l.length : ℚ)

/-- The population standard deviation named by claim C4. -/
noncomputable def popStd (l : List ℚ) : ℝ := Real.sqrt (popVar l)

/-- `pandas` median: midpoint of the sorted values (`NaN` on empty input). -/
def medianOf (l : List ℚ) : Option ℚ :=
  let s := List.insertionSort (· ≤ ·) l
  if l.isEmpty then none
  else if l.length % 2 = 1 then some (s.getD (l.length / 2) 0)
  else some ((s.getD (l.length / 2 - 1) 0 + s.getD (l.length / 2) 0) / 2)

/-- One row of the rolled-feature frame: the trailing window's non-null
delay values, or `none` for a `NaT`-timestamp row (which the group loop
never touches). -/
structure RollRow where
  vals : Option (List ℚ)
deriving DecidableEq

/-- The `<group>_mean_<w>` cell: `NaN` for untouched rows and for windows
with no non-null delay. -/
def RollRow.meanCell (r : RollRow) : Option ℚ := r.vals.bind meanOpt

/-- The `<group>_median_<w>` cell. -/
def RollRow.medianCell (r : RollRow) : Option ℚ := r.vals.bind medianOf

/-- The `<group>_std_<w>` cell: `rolled['std'].fillna(0)` — the `ddof=1`
rolling std is `NaN` for fewer than two observations and is filled with 0;
untouched (`NaT`) rows keep their `NaN` initialisation. -/
noncomputable def RollRow.stdCell (r : RollRow) : Option ℝ :=
  r.vals.map (fun l => if l.length ≤ 1 then 0 else Real.sqrt (svar l))

/-- The `<group>_count_<w>` cell: initialised to `0`, overwritten with the
window's non-null count for rows with a timestamp. -/
def RollRow.countCell (r : RollRow) : Option Nat :=
  some (match r.vals with | none => 0 | some l => l.length)

/-- Grouping by `route_id`. -/
def routeKey (e : Event) : String := e.route

/-- Grouping by `plant_id`. -/
def plantKey (e : Event) : String := e.plant

/-- Membership of an event in the trailing window ending at time `t`:
`pandas` `rolling(w)` with its default `closed='right'`, i.e. the
half-open interval `(t − w, t]` (as `u ≤ t ∧ t < u + w` over naturals). -/
def tsInWin (w t : Nat) (e : Event) : Bool :=
  match e.ts with
  | some u => decide (u ≤ t) && decide (t < u + w)
  | none => false

/-- `df_valid.groupby(group_col).groups`: the valid-timestamp events of one
group. -/
def validGroup (key : Event → String) (evs : List Event) (r : String) : List Event :=
  evs.filter (fun e => e.ts.isSome && (key e == r))

/-- The non-null timestamps of a group (the group's rolling index). -/
def groupTs (key : Event → String) (evs : List Event) (r : String) : List Nat :=
  (validGroup key evs r).filterMap Event.ts

/-- The rolled-feature row for one event: `NaT` rows keep the frame's
initialisation; other rows get the trailing-window delays of their group,
unless the group's timestamp index has duplicate labels, in which case
`reindex` raises. -/
def rollRowFor (key : Event → String) (w : Nat) (evs : List Event) (e : Event) :
    Except String RollRow :=
  match e.ts with
  | none => Except.ok ⟨none⟩
  | some t =>
    let grp := sortByTs (validGroup key evs (key e))
    if (grp.filterMap Event.ts).Nodup then
      Except.ok ⟨some ((grp.filter (tsInWin w t)).filterMap Event.delay)⟩
    else Except.error "cannot reindex on an axis with duplicate labels"

/-- `rolling_group_features(df, group_col)` for one window duration `w`.
When no event has a parseable timestamp (`valid_mask.sum() == 0`, which
also covers an empty frame) the function returns early with a columnless
frame — modelled as `none`, meaning no windowed columns exist at all;
otherwise it produces one row per event. -/
def rollingGroupFeatures (key : Event → String) (w : Nat) (evs : List Event) :
    Except String (Option (List RollRow)) :=
  if evs.all (fun e => e.ts.isNone) then Except.ok none
  else (evs.mapM (rollRowFor key w evs)).map some

/-- The half-open trailing window of the amended claim C2, written from the
spec's words: the delays of the events sharing `e`'s entity key whose
timestamp `u` satisfies `t − duration < u ≤ t`, in dataset order. -/
def specWindowDelays (key : Event → String) (w : Nat) (evs : List Event)
    (e : Event) (t : Nat) : List ℚ :=
  (evs.filter (fun x => (key x == key e) && tsInWin w t x)).filterMap Event.delay

/-- The closed-interval window exactly as claim C2 states it: the delays of
the events sharing `e`'s entity key whose timestamp lies in
`[t − duration, t]`, both endpoints included (`u ≤ t ∧ t ≤ u + w`). -/
def claimClosedWindowDelays (key : Event → String) (w : Nat) (evs : List Event)
    (e : Event) (t : Nat) : List ℚ :=
  (evs.filter (fun x => (key x == key e) &&
    (match x.ts with
     | some u => decide (u ≤ t) && decide (t ≤ u + w)
     | none => false))).filterMap Event.delay

theorem meanVal_perm {l l' : List ℚ} (h : l.Perm l') : meanVal l = meanVal l' := by
  rw [meanVal, meanVal, h.sum_eq, h.length_eq]

theorem meanOpt_perm {l l' : List ℚ} (h : l.Perm l') : meanOpt l = meanOpt l' := by
  rw [meanOpt, meanOpt, meanVal_perm h]
  rcases l with _ | _ <;> rcases l' with _ | _ <;> first
    | rfl
    | exact absurd h.length_eq (by simp)

theorem sqDevSum_perm {l l' : List ℚ} (h : l.Perm l') : sqDevSum l = sqDevSum l' := by
  rw [sqDevSum, sqDevSum, meanVal_perm h, (h.map _).sum_eq]

theorem svar_perm {l l' : List ℚ} (h : l.Perm l') : svar l = svar l' := by
  rw [svar, svar, sqDevSum_perm h, h.length_eq]

theorem medianOf_perm {l l' : List ℚ} (h : l.Perm l') : medianOf l = medianOf l' := by
  have hsort : List.insertionSort (· ≤ ·) l = List.insertionSort (· ≤ ·) l' := by
    refine List.eq_of_perm_of_sorted ?_ (List.sorted_insertionSort _ l)
      (List.sorted_insertionSort _ l')
    exact (List.perm_insertionSort _ l).trans (h.trans (List.perm_insertionSort _ l').symm)
  rw [medianOf, medianOf, hsort, h.length_eq]
  rcases l with _ | _ <;> rcases l' with _ | _ <;> first
    | rfl
    | exact absurd h.length_eq (by simp)

/-- C2 (amended): for an event with a parseable timestamp `t` (and a
duplicate-free group index, the precondition for the code to return at
all), the attached window content is, up to the group-sort permutation,
exactly the delays of the same-key events with timestamp in the half-open
interval `(t − duration, t]` — the left endpoint is excluded
(`closed='right'`), and no event later than `t` contributes — and every
attached aggregate (mean, median, count, variance) coincides with the
aggregate of that event set. -/
theorem c2_window_semantics (key : Event → String) (w : Nat) (evs : List Event)
    (e : Event) (t : Nat) (het : e.ts = some t)
    (hnd : (groupTs key evs (key e)).Nodup) :
    ∃ vals, rollRowFor key w evs e = Except.ok ⟨some vals⟩ ∧
      vals.Perm (specWindowDelays key w evs e t) ∧
      meanOpt vals = meanOpt (specWindowDelays key w evs e t) ∧
      medianOf vals = medianOf (specWindowDelays key w evs e t) ∧
      vals.length = (specWindowDelays key w evs e t).length ∧
      svar vals = svar (specWindowDelays key w evs e t) := by
  have hperm1 : (sortByTs (validGroup key evs (key e))).Perm (validGroup key evs (key e)) :=
    List.perm_insertionSort _ _
  have hndg : ((sortByTs (validGroup key evs (key e))).filterMap Event.ts).Nodup := by
    rw [(hperm1.filterMap Event.ts).nodup_iff]
    exact hnd
  have hfeq : (validGroup key evs (key e)).filter (tsInWin w t) =
      evs.filter (fun x => (key x == key e) && tsInWin w t x) := by
    rw [validGroup, List.filter_filter]
    refine List.filter_congr ?_
    intro a _
    cases ha : a.ts <;> simp [tsInWin, ha, Bool.and_comm]
  have hperm : (((sortByTs (validGroup key evs (key e))).filter (tsInWin w t)).filterMap
      Event.delay).Perm (specWindowDelays key w evs e t) := by
    rw [specWindowDelays, ← hfeq]
    exact (hperm1.filter _).filterMap _
  refine ⟨_, ?_, hperm, meanOpt_perm hperm, medianOf_perm hperm, hperm.length_eq,
    svar_perm hperm⟩
  simp only [rollRowFor, het]
  rw [if_pos hndg]

def W2a : Event := ⟨"A", "P", some 0, some 0⟩

def W2b : Event := ⟨"A", "P", some (7 * day), some 10⟩

/-- C2 counterexample: two events of the same route exactly one window
length (7 days) apart.  The claim's closed interval `[t − 7D, t]` contains
both delays, with mean 5; the code's window for the later event contains
only its own delay, and the attached mean is 10. -/
theorem c2_counterexample :
    rollingGroupFeatures routeKey (7 * day) [W2a, W2b] =
      Except.ok (some [⟨some [0]⟩, ⟨some [10]⟩]) ∧
    claimClosedWindowDelays routeKey (7 * day) [W2a, W2b] W2b (7 * day) = [0, 10] ∧
    RollRow.meanCell ⟨some [10]⟩ = some 10 ∧
    meanOpt [(0 : ℚ), 10] = some 5 ∧
    some (10 : ℚ) ≠ some (5 : ℚ) := by
  refine ⟨rfl, by decide, ?_, ?_, by norm_num⟩
  · show meanOpt [(10 : ℚ)] = some 10
    norm_num [meanOpt, meanVal]
  · norm_num [meanOpt, meanVal]

/-- Witness for C2's amended theorem at the same two-event dataset. -/
theorem c2_window_semantics_witness :
    ∃ vals, rollRowFor routeKey (7 * day) [W2a, W2b] W2b = Except.ok ⟨some vals⟩ ∧
      vals.Perm (specWindowDelays routeKey (7 * day) [W2a, W2b] W2b (7 * day)) ∧
      meanOpt vals = meanOpt (specWindowDelays routeKey (7 * day) [W2a, W2b] W2b (7 * day)) ∧
      medianOf vals = medianOf (specWindowDelays routeKey (7 * day) [W2a, W2b] W2b (7 * day)) ∧
      vals.length = (specWindowDelays routeKey (7 * day) [W2a, W2b] W2b (7 * day)).length ∧
      svar vals = svar (specWindowDelays routeKey (7 * day) [W2a, W2b] W2b (7 * day)) :=
  c2_window_semantics routeKey (7 * day) [W2a, W2b] W2b (7 * day) rfl (by decide)

theorem mapM_error_of_mem {α β : Type} (f : α → Except String β) (l : List α)
    (a : α) (ha : a ∈ l) (m : String) (hf : f a = Except.error m) :
    ∃ m', l.mapM f = Except.error m' := by
  induction l with
  | nil => cases ha
  | cons b bs ih =>
    rw [List.mapM_cons]
    rcases List.mem_cons.mp ha with rfl | ha2
    · exact ⟨m, by rw [hf]; rfl⟩
    · cases hfb : f b with
      | error m2 => exact ⟨m2, rfl⟩
      | ok y =>
        obtain ⟨m', hm⟩ := ih ha2
        refine ⟨m', ?_⟩
        rw [hm]
        rfl

/-- C10: within each entity group all non-null timestamps must be pairwise
distinct for `rolling_group_features` to return at all: whenever some group
contains two events with equal non-null timestamps, the `reindex` of the
rolled statistics onto the duplicate-labelled timestamp index raises
instead of producing a feature frame. -/
theorem c10_duplicate_timestamps_raise (key : Event → String) (w : Nat)
    (evs : List Event) (r : String) (hdup : ¬ (groupTs key evs r).Nodup) :
    ∃ msg, rollingGroupFeatures key w evs = Except.error msg := by
  have hne : groupTs key evs r ≠ [] := by
    intro h
    exact hdup (h ▸ List.nodup_nil)
  obtain ⟨u, hu⟩ := List.exists_mem_of_ne_nil _ hne
  obtain ⟨e, he, heu⟩ := List.mem_filterMap.mp hu
  have hevg := List.mem_filter.mp he
  have hkey : key e = r := by
    have h2 := hevg.2
    rw [Bool.and_eq_true, beq_iff_eq] at h2
    exact h2.2
  have herr : rollRowFor key w evs e =
      Except.error "cannot reindex on an axis with duplicate labels" := by
    simp only [rollRowFor, heu]
    rw [if_neg]
    intro hndS
    apply hdup
    rw [hkey] at hndS
    have hperm : ((sortByTs (validGroup key evs r)).filterMap Event.ts).Perm
        (groupTs key evs r) :=
      (List.perm_insertionSort _ _).filterMap Event.ts
    exact hperm.nodup_iff.mp hndS
  have hnotall : ¬ (evs.all (fun e => e.ts.isNone) = true) := by
    intro hall
    have h2 := List.all_eq_true.mp hall e hevg.1
    rw [heu] at h2
    simp at h2
  obtain ⟨m', hm'⟩ := mapM_error_of_mem _ evs e hevg.1 _ herr
  refine ⟨m', ?_⟩
  rw [rollingGroupFeatures, if_neg hnotall, hm']
  rfl

def W10a : Event := ⟨"A", "P", some 0, some 1⟩

def W10b : Event := ⟨"A", "P", some 0, some 2⟩

/-- Witness for C10: two same-route events with the same timestamp make the
whole feature computation raise. -/
theorem c10_duplicate_timestamps_raise_witness :
    ¬ (groupTs routeKey [W10a, W10b] "A").Nodup ∧
    ∃ msg, rollingGroupFeatures routeKey (7 * day) [W10a, W10b] = Except.error msg :=
  ⟨by decide, c10_duplicate_timestamps_raise routeKey (7 * day) [W10a, W10b] "A" (by decide)⟩

theorem validGroup_filter_isSome (key : Event → String) (evs : List Event) (r : String) :
    validGroup key (evs.filter (fun x => x.ts.isSome)) r = validGroup key evs r := by
  rw [validGroup, validGroup, List.filter_filter]
  refine List.filter_congr ?_
  intro a _
  cases ha : a.ts <;> simp [ha]

def W8 : Event := ⟨"A", "P", none, some 5⟩

def W8v : Event := ⟨"A", "P", some 0, some 1⟩

/-- C8 counterexample: a dataset with one parseable timestamp (so the
window pass runs rather than returning the columnless early-exit frame)
and one null-timestamp event.  The null event's count cell holds `0`, not
a null — the claim that all four windowed fields are left null fails on
the count column. -/
theorem c8_counterexample :
    rollingGroupFeatures routeKey (7 * day) [W8v, W8] =
      Except.ok (some [⟨some [1]⟩, ⟨none⟩]) ∧
    RollRow.countCell ⟨none⟩ = some 0 ∧ some 0 ≠ (none : Option Nat) :=
  ⟨rfl, rfl, by decide⟩

/-- C8 (amended): when at least one timestamp parses, an event with a null
timestamp keeps the initialisation row — mean, median and std cells are
null but the count cell is `0` —; when no timestamp parses at all,
`rolling_group_features` returns early with a columnless frame and no
windowed fields exist.  In either case null-timestamp events contribute to
no other event's window statistics: filtering them away changes no row. -/
theorem c8_null_timestamp_rows (key : Event → String) (w : Nat) (evs : List Event) :
    (∀ e : Event, e.ts = none → rollRowFor key w evs e = Except.ok ⟨none⟩) ∧
    RollRow.meanCell ⟨none⟩ = none ∧ RollRow.medianCell ⟨none⟩ = none ∧
    RollRow.stdCell ⟨none⟩ = none ∧ RollRow.countCell ⟨none⟩ = some 0 ∧
    (evs.all (fun e => e.ts.isNone) = true →
      rollingGroupFeatures key w evs = Except.ok none) ∧
    (∀ e : Event, rollRowFor key w (evs.filter (fun x => x.ts.isSome)) e =
      rollRowFor key w evs e) := by
  refine ⟨?_, rfl, rfl, rfl, rfl, ?_, ?_⟩
  · intro e h
    simp [rollRowFor, h]
  · intro hall
    rw [rollingGroupFeatures, if_pos hall]
  · intro e
    cases h : e.ts <;> simp only [rollRowFor, h, validGroup_filter_isSome]

/-- Witness for C8's amended theorem: the two-event dataset exercises the
per-row clauses, and the all-null dataset exercises the early-exit clause. -/
theorem c8_null_timestamp_rows_witness :
    rollRowFor routeKey (7 * day) [W8v, W8] W8 = Except.ok ⟨none⟩ ∧
    rollingGroupFeatures routeKey (7 * day) [W8] = Except.ok none ∧
    rollRowFor routeKey (7 * day) ([W8v, W8].filter (fun x => x.ts.isSome)) W8 =
      rollRowFor routeKey (7 * day) [W8v, W8] W8 :=
  ⟨(c8_null_timestamp_rows routeKey (7 * day) [W8v, W8]).1 W8 rfl,
    (c8_null_timestamp_rows routeKey (7 * day) [W8]).2.2.2.2.2.1 (by decide),
    (c8_null_timestamp_rows routeKey (7 * day) [W8v, W8]).2.2.2.2.2.2 W8⟩

theorem svar_nonneg_of_two_le {l : List ℚ} (h : 2 ≤ l.length) : 0 ≤ svar l := by
  rw [svar]
  apply div_nonneg
  · rw [sqDevSum]
    apply List.sum_nonneg
    intro x hx
    obtain ⟨y, _, rfl⟩ := List.mem_map.mp hx
    positivity
  · have h2 : (2 : ℚ) ≤ (l.length : ℚ) := by exact_mod_cast h
    linarith

def W4a : Event := ⟨"A", "P", some 0, some 0⟩

def W4b : Event := ⟨"A", "P", some 60, some 2⟩

/-- C4 counterexample: a window holding the delays `[0, 2]`.  The attached
std is `sqrt 2` (sample, `ddof=1`) while the population standard deviation
of the window is `1`; they differ. -/
theorem c4_counterexample :
    rollingGroupFeatures routeKey (7 * day) [W4a, W4b] =
      Except.ok (some [⟨some [0]⟩, ⟨some [0, 2]⟩]) ∧
    RollRow.stdCell ⟨some [(0 : ℚ), 2]⟩ ≠ some (popStd [0, 2]) := by
  refine ⟨rfl, ?_⟩
  have hsv : svar [(0 : ℚ), 2] = 2 := by
    norm_num [svar, sqDevSum, meanVal]
  have hpv : popVar [(0 : ℚ), 2] = 1 := by
    norm_num [popVar, sqDevSum, meanVal]
  have h1 : RollRow.stdCell ⟨some [(0 : ℚ), 2]⟩ = some (Real.sqrt 2) := by
    rw [RollRow.stdCell]
    simp [hsv]
  have h2 : popStd [(0 : ℚ), 2] = 1 := by
    rw [popStd, hpv]
    simp
  rw [h1, h2]
  intro hc
  have h3 : Real.sqrt 2 = 1 := Option.some.inj hc
  have h4 : Real.sqrt 2 ^ 2 = 2 := Real.sq_sqrt (by norm_num)
  rw [h3] at h4
  norm_num at h4

/-- C4 (amended): the std attached by the rolled-feature frame is the
`ddof=1` sample standard deviation of the window's delays — for a window
with at least two values it is the nonnegative real whose square is the
sample variance `Σ(x−mean)² / (n−1)` (so it relates to the population
variance by `svar·(n−1) = popVar·n`) — and a window with exactly one value
yields std `0` (the `NaN` filled by `fillna(0)`), never a null and never an
error. -/
theorem c4_std_semantics (key : Event → String) (w : Nat) (evs : List Event)
    (rows : List RollRow)
    (_hrows : rollingGroupFeatures key w evs = Except.ok (some rows))
    (r : RollRow) (_hr : r ∈ rows) (l : List ℚ) (hl : r.vals = some l) :
    (l.length = 1 → r.stdCell = some 0) ∧
    (2 ≤ l.length → ∃ s : ℝ, r.stdCell = some s ∧ 0 ≤ s ∧
      s ^ 2 = (svar l : ℝ) ∧
      svar l * ((l.length : ℚ) - 1) = popVar l * (l.length : ℚ)) := by
  have hstd : r.stdCell = some (if l.length ≤ 1 then 0 else Real.sqrt (svar l)) := by
    rw [RollRow.stdCell, hl]
    rfl
  constructor
  · intro h1
    rw [hstd, if_pos (by omega)]
  · intro h2
    rw [hstd, if_neg (by omega)]
    refine ⟨Real.sqrt (svar l), rfl, Real.sqrt_nonneg _, ?_, ?_⟩
    · exact Real.sq_sqrt (by exact_mod_cast svar_nonneg_of_two_le h2)
    · have hq : (2 : ℚ) ≤ (l.length : ℚ) := by exact_mod_cast h2
      have hlen1 : ((l.length : ℚ) - 1) ≠ 0 := by
        intro hc
        rw [sub_eq_zero] at hc
        rw [hc] at hq
        norm_num at hq
      have hlen0 : ((l.length : ℚ)) ≠ 0 := by
        intro hc
        rw [hc] at hq
        norm_num at hq
      rw [svar, popVar, div_mul_cancel₀ _ hlen1, div_mul_cancel₀ _ hlen0]

/-- Witness for C4's amended theorem at the concrete two-event dataset. -/
theorem c4_std_semantics_witness :
    RollRow.stdCell ⟨some [(0 : ℚ)]⟩ = some 0 ∧
    (∃ s : ℝ, RollRow.stdCell ⟨some [(0 : ℚ), 2]⟩ = some s ∧ 0 ≤ s ∧
      s ^ 2 = (svar [(0 : ℚ), 2] : ℝ) ∧
      svar [(0 : ℚ), 2] * (([(0 : ℚ), 2].length : ℚ) - 1) =
        popVar [(0 : ℚ), 2] * ([(0 : ℚ), 2].length : ℚ)) :=
  ⟨(c4_std_semantics routeKey (7 * day) [W4a, W4b] [⟨some [0]⟩, ⟨some [0, 2]⟩] rfl
      ⟨some [0]⟩ (by decide) [0] rfl).1 rfl,
    (c4_std_semantics routeKey (7 * day) [W4a, W4b] [⟨some [0]⟩, ⟨some [0, 2]⟩] rfl
      ⟨some [0, 2]⟩ (by decide) [0, 2] rfl).2 (by decide)⟩

/-! ### `add_route_zscore` and the statistical scorer of `run_baselines` -/

/-- The non-null `dispatch_delay_minutes` of one route — the skip-NaN input
of `groupby('route_id')['dispatch_delay_minutes'].agg(['mean','std'])`. -/
def routeDelays (evs : List Event) (r : String) : List ℚ :=
  (evs.filter (fun e => e.route == r)).filterMap Event.delay

/-- `agg('std')` / `Series.std()` (`ddof=1`): `NaN` for fewer than two
non-null values, else the square root of the sample variance. -/
noncomputable def stdOptR (l : List ℚ) : Option ℝ :=
  if l.length < 2 then none else some (Real.sqrt (svar l))

/-- `.replace(0, np.nan)` applied to the group std. -/
noncomputable def stdReplaced (l : List ℚ) : Option ℝ :=
  (stdOptR l).bind (fun s => if s = 0 then none else some s)

/-- `add_route_zscore`: `z = (delay − group_mean) / group_std` after the
zero-std replacement; any `NaN` operand makes `z` `NaN`. -/
noncomputable def zscoreOf (evs : List Event) (e : Event) : Option ℝ :=
  match e.delay, meanOpt (routeDelays evs e.route),
      stdReplaced (routeDelays evs e.route) with
  | some v, some m, some s => some (((v - m : ℚ) : ℝ) / s)
  | _, _, _ => none

/-- `mu = train['dispatch_delay_minutes'].mean()` over a train fold. -/
def trainMu (train : List Event) : Option ℚ := meanOpt (train.filterMap Event.delay)

/-- `sd = train.std() if train.std() > 0 else 1.0`; a `NaN` std also fails
the `> 0` comparison and is replaced by `1.0`. -/
noncomputable def trainSd (train : List Event) : ℝ :=
  match stdOptR (train.filterMap Event.delay) with
  | some s => if 0 < s then s else 1
  | none => 1

/-- The statistical scorer's decision for one test value:
`|z| > 3` with `z = (value − mu)/sd`; `NaN` comparisons are false. -/
def zFlag (train : List Event) (d : Option ℚ) : Prop :=
  match d, trainMu train with
  | some v, some m => 3 < |((v - m : ℚ) : ℝ)| / trainSd train
  | _, _ => False

theorem meanVal_all_eq {l : List ℚ} {c : ℚ} (hne : l ≠ []) (h : ∀ x ∈ l, x = c) :
    meanVal l = c := by
  rw [meanVal, List.sum_eq_card_nsmul l c h, nsmul_eq_mul]
  have hl : (l.length : ℚ) ≠ 0 := by
    have := List.length_pos.mpr hne
    exact_mod_cast Nat.pos_iff_ne_zero.mp this
  rw [mul_comm, mul_div_assoc, div_self hl, mul_one]

theorem svar_all_eq {l : List ℚ} {c : ℚ} (hne : l ≠ []) (h : ∀ x ∈ l, x = c) :
    svar l = 0 := by
  rw [svar, sqDevSum]
  have hm := meanVal_all_eq hne h
  have hz : ∀ x ∈ l.map (fun x => (x - meanVal l) ^ 2), x = 0 := by
    intro x hx
    obtain ⟨y, hy, rfl⟩ := List.mem_map.mp hx
    rw [h y hy, hm, sub_self]
    ring
  rw [List.sum_eq_zero hz, zero_div]

/-- C5 (amended): in a group whose non-null delay values are all equal, the
group std is `NaN` (one observation) or `0` — replaced by `NaN` — so the
attached z-score is `NaN` for every member of the group, with no exception
and no infinite value; the fold-level statistical scorer, however,
standardises by the whole train fold's mean/std and may still flag such a
group's events (see the counterexample). -/
theorem c5_zero_std_zscore (evs : List Event) (r : String)
    (hall : ∀ x ∈ routeDelays evs r, ∀ y ∈ routeDelays evs r, x = y)
    (e : Event) (_he : e ∈ evs) (hre : e.route = r) :
    zscoreOf evs e = none := by
  have hkey : meanOpt (routeDelays evs r) = none ∨ stdReplaced (routeDelays evs r) = none := by
    rcases hl : routeDelays evs r with _ | ⟨c, rest⟩
    · left
      rw [meanOpt, if_pos]
      rfl
    · right
      rcases rest with _ | ⟨c2, rest2⟩
      · rw [stdReplaced, stdOptR, if_pos (by simp)]
        rfl
      · have hc : ∀ x ∈ (c :: c2 :: rest2 : List ℚ), x = c := by
          intro x hx
          exact hall x (hl.symm ▸ hx) c (hl.symm ▸ List.mem_cons_self c (c2 :: rest2))
        have hsv : svar (c :: c2 :: rest2 : List ℚ) = 0 :=
          svar_all_eq (by simp) hc
        rw [stdReplaced, stdOptR, if_neg (by simp), hsv]
        simp
  rcases hkey with hm | hs
  · cases hd : e.delay <;>
      simp only [zscoreOf, hre, hd, hm]
  · cases hd : e.delay <;>
      cases hm2 : meanOpt (routeDelays evs r) <;>
        simp only [zscoreOf, hre, hd, hm2, hs]

def W5b0 : Event := ⟨"B", "P", some 0, some 0⟩

def W5b1 : Event := ⟨"B", "P", some day, some 0⟩

def W5a0 : Event := ⟨"A", "P", some (2 * day), some 100⟩

def W5a1 : Event := ⟨"A", "P", some (2 * day + 60), some 100⟩

/-- C5 counterexample: route "A"'s delays are all equal (group std 0, group
z-score `NaN` for its members), yet in the second emitted fold the
statistical scorer — which standardises by the train fold's overall
mean/std — flags route "A"'s test event.  The claim that the scorer flags
zero anomalies in such a group is false. -/
theorem c5_counterexample :
    timeSplits true [W5b0, W5b1, W5a0, W5a1] 5 =
      [⟨[W5b0], [W5b1]⟩, ⟨[W5b0, W5b1], [W5a0, W5a1]⟩] ∧
    (∀ x ∈ routeDelays [W5b0, W5b1, W5a0, W5a1] "A",
      ∀ y ∈ routeDelays [W5b0, W5b1, W5a0, W5a1] "A", x = y) ∧
    zscoreOf [W5b0, W5b1, W5a0, W5a1] W5a0 = none ∧
    zFlag [W5b0, W5b1] W5a0.delay := by
  refine ⟨by decide, by decide, ?_, ?_⟩
  · have hrd : routeDelays [W5b0, W5b1, W5a0, W5a1] "A" = [100, 100] := rfl
    have hsv : svar [(100 : ℚ), 100] = 0 := by
      norm_num [svar, sqDevSum, meanVal]
    have hsr : stdReplaced [(100 : ℚ), 100] = none := by
      rw [stdReplaced, stdOptR, if_neg (by norm_num), hsv]
      simp
    simp only [zscoreOf, show W5a0.route = "A" from rfl, hrd, hsr]
    rfl
  · have hmu : trainMu [W5b0, W5b1] = some 0 := by
      have h1 : [W5b0, W5b1].filterMap Event.delay = [0, 0] := rfl
      rw [trainMu, h1]
      norm_num [meanOpt, meanVal]
    have hsd : trainSd [W5b0, W5b1] = 1 := by
      have h1 : [W5b0, W5b1].filterMap Event.delay = [0, 0] := rfl
      rw [trainSd, h1, stdOptR, if_neg (by norm_num)]
      have h2 : svar [(0 : ℚ), 0] = 0 := by
        norm_num [svar, sqDevSum, meanVal]
      rw [h2]
      simp
    have hd : W5a0.delay = some 100 := rfl
    simp only [zFlag, hd, hmu, hsd]
    rw [div_one]
    push_cast
    rw [sub_zero, abs_of_nonneg (by norm_num)]
    norm_num

def W5w : Event := ⟨"A", "P", some 0, some 5⟩

/-- Witness for C5's amended theorem: a one-event route. -/
theorem c5_zero_std_zscore_witness :
    (∀ x ∈ routeDelays [W5w] "A", ∀ y ∈ routeDelays [W5w] "A", x = y) ∧
    zscoreOf [W5w] W5w = none :=
  ⟨by decide, c5_zero_std_zscore [W5w] "A" (by decide) W5w (by decide) rfl⟩

/-! ### The cross-validation loop of `run_baselines`

The scikit-learn estimator is external; its fit/score step is modelled as a
fallible function on folds.  In the source the loop body has no
`try/except` around the fit/score calls — the only guarded step is the
per-fold `roc_auc_score` computation, whose failure records a missing AUC. -/

/-- The fold loop: for each fold run the unguarded fit/score step, then the
guarded AUC step (`try/except` → `None`), and append the fold's entry. -/
def runFoldsM (fitScore : Fold → Except String ℚ)
    (auc : Fold → ℚ → Except String ℚ) (folds : List Fold) :
    Except String (List (ℚ × Option ℚ)) :=
  folds.mapM (fun f =>
    (fitScore f).bind (fun s =>
      Except.ok (s, match auc f s with
        | Except.ok v => some v
        | Except.error _ => none)))

/-- `run_baselines`' cross-validation pass over the `time_splits` folds. -/
def runBaselinesM (fitScore : Fold → Except String ℚ)
    (auc : Fold → ℚ → Except String ℚ)
    (hasTsCol : Bool) (evs : List Event) (n : Nat) :
    Except String (List (ℚ × Option ℚ)) :=
  runFoldsM fitScore auc (timeSplits hasTsCol evs n)

def fitFail : Fold → Except String ℚ := fun _ => Except.error "fit failed"

def fitOkZero : Fold → Except String ℚ := fun _ => Except.ok 0

def aucOk : Fold → ℚ → Except String ℚ := fun _ s => Except.ok s

def aucFail : Fold → ℚ → Except String ℚ := fun _ _ => Except.error "auc failed"

def W3a : Event := ⟨"A", "P", some 0, some 1⟩

def W3b : Event := ⟨"A", "P", some day, some 2⟩

/-- C3 counterexample: a dataset yielding one fold, with a scorer whose fit
step throws.  The claim says the exception is caught and a report is still
produced; the code propagates it and the run ends in the error — no report
of the remaining folds is ever built. -/
theorem c3_counterexample :
    timeSplits true [W3a, W3b] 2 = [⟨[W3a], [W3b]⟩] ∧
    runBaselinesM fitFail aucOk true [W3a, W3b] 2 = Except.error "fit failed" :=
  ⟨by decide, rfl⟩

/-- C3 (amended): in the fold loop only the AUC computation is guarded — if
every fold's fit/score step succeeds, the report lists every fold (an AUC
exception merely records no AUC for its fold), but a fit/score exception in
any fold propagates and aborts the whole run with no report. -/
theorem c3_fold_exception_flow :
    (∀ (fitScore : Fold → Except String ℚ) (auc : Fold → ℚ → Except String ℚ)
      (folds : List Fold) (f : Fold), f ∈ folds →
      ∀ m, fitScore f = Except.error m →
      ∃ m', runFoldsM fitScore auc folds = Except.error m') ∧
    (∀ (fitScore : Fold → Except String ℚ) (auc : Fold → ℚ → Except String ℚ)
      (folds : List Fold), (∀ f ∈ folds, ∃ s, fitScore f = Except.ok s) →
      ∃ rep, runFoldsM fitScore auc folds = Except.ok rep ∧
        rep.length = folds.length) := by
  constructor
  · intro fitScore auc folds f hf m hm
    refine mapM_error_of_mem _ folds f hf m ?_
    rw [hm]
    rfl
  · intro fitScore auc folds hok
    induction folds with
    | nil => exact ⟨[], rfl, rfl⟩
    | cons f fs ih =>
      obtain ⟨s, hs⟩ := hok f (List.mem_cons_self f fs)
      obtain ⟨rep, hrep, hlen⟩ := ih (fun g hg => hok g (List.mem_cons_of_mem f hg))
      refine ⟨(s, match auc f s with
        | Except.ok v => some v
        | Except.error _ => none) :: rep, ?_, by simp [hlen]⟩
      rw [runFoldsM, List.mapM_cons, hs]
      show ((runFoldsM fitScore auc fs).bind _) = _
      rw [hrep]
      rfl

/-- Witness for C3's amended theorem: a one-fold run whose fit throws ends
in the error; a one-fold run whose AUC throws still reports its fold. -/
theorem c3_fold_exception_flow_witness :
    (∃ m', runFoldsM fitFail aucOk [⟨[W3a], [W3b]⟩] = Except.error m') ∧
    (∃ rep, runFoldsM fitOkZero aucFail [⟨[W3a], [W3b]⟩] = Except.ok rep ∧
      rep.length = 1) :=
  ⟨c3_fold_exception_flow.1 fitFail aucOk [⟨[W3a], [W3b]⟩] ⟨[W3a], [W3b]⟩
      (List.mem_cons_self _ _) "fit failed" rfl,
    c3_fold_exception_flow.2 fitOkZero aucFail [⟨[W3a], [W3b]⟩]
      (fun _ _ => ⟨0, rfl⟩)⟩

/-! ### `main` of feature_engineer_dispatch.py -/

/-- A raw input row of the dispatch dataset (one entry per relevant input
column); `expected`/`actual` are the arrival times in seconds. -/
structure InRow where
  route : String
  plant : String
  ts : Option Nat
  expected : Option Int
  actual : Option Int
deriving DecidableEq

/-- `load_and_prepare`: parse the time columns and derive
`dispatch_delay_minutes = (actual_arrival − expected_arrival)/60`
(`NaN` when either side is missing). -/
def loadPrepare (r : InRow) : Event :=
  ⟨r.route, r.plant, r.ts,
    match r.expected, r.actual with
    | some e, some a => some (((a - e : Int) : ℚ) / 60)
    | _, _ => none⟩

/-- A persisted feature row: the event columns of the sorted frame and,
when any timestamp parsed, the four rolled blocks
(`route_id`/`plant_id` × 7D/30D) that `pd.concat` attaches to it
(`roll = none` when `rolling_group_features` returned the columnless frame
and `main` skipped the concat).  `concat` aligns on the pre-sort integer
index (the rolled frames keep the original labels while the event columns
were `reset_index`), so position `i` of the output pairs the `i`-th sorted
event with the rolled statistics of pre-sort row `i`. -/
structure OutRow where
  ev : Event
  roll : Option (RollRow × RollRow × RollRow × RollRow)
deriving DecidableEq

/-- Builds one output row from the sorted event and its four rolled blocks. -/
def mkOut (e : Event) (a b c d : RollRow) : OutRow := ⟨e, some (a, b, c, d)⟩

def w7 : Nat := 7 * day

def w30 : Nat := 30 * day

def zip5 {α β γ δ ε ζ : Type} (f : α → β → γ → δ → ε → ζ) :
    List α → List β → List γ → List δ → List ε → List ζ
  | a :: as, b :: bs, c :: cs, d :: ds, e :: es =>
      f a b c d e :: zip5 f as bs cs ds es
  | _, _, _, _, _ => []

/-- `main`: prepare, sort by timestamp, compute the rolled features per
group column and window on the sorted frame, and concatenate them back by
original row label.  When no timestamp parses, `rolling_group_features`
returns columnless frames, the `if not rolled.empty` guards skip both
concats, and the persisted rows carry no rolled blocks. -/
def mainPipeline (rows : List InRow) : Except String (List OutRow) :=
  let orig := rows.map loadPrepare
  let evs := sortByTs orig
  if orig.all (fun e => e.ts.isNone) then
    Except.ok (evs.map (fun e => ⟨e, none⟩))
  else
    (orig.mapM (rollRowFor routeKey w7 evs)).bind (fun a =>
      (orig.mapM (rollRowFor routeKey w30 evs)).bind (fun b =>
        (orig.mapM (rollRowFor plantKey w7 evs)).bind (fun c =>
          (orig.mapM (rollRowFor plantKey w30 evs)).bind (fun d =>
            Except.ok (zip5 mkOut evs a b c d)))))

/-- Columns added by `load_and_prepare`. -/
def baseDerivedCols : List String :=
  ["dispatch_delay_minutes", "hour", "dayofweek", "is_weekend", "abs_delay",
    "is_delayed_15"]

/-- The four rolled columns of one `(group, window)` block. -/
def rollColNames (g wname : String) : List String :=
  [g ++ "_mean_" ++ wname, g ++ "_median_" ++ wname, g ++ "_std_" ++ wname,
    g ++ "_count_" ++ wname]

/-- The sixteen rolled columns, in concat order. -/
def rolledColumns : List String :=
  rollColNames "route_id" "7D" ++ rollColNames "route_id" "30D" ++
    rollColNames "plant_id" "7D" ++ rollColNames "plant_id" "30D"

/-- Columns added by `add_route_zscore` (the merged group mean/std plus the
z-score). -/
def zscoreColNames : List String := ["route_id_mean", "route_id_std", "route_id_zscore"]

/-- The columns `main` drops before persisting. -/
def droppedCols : List String := ["expected_arrival", "actual_arrival"]

/-- The column list of the persisted feature table: input columns, the
`load_and_prepare` columns, the rolled columns — present only when some
timestamp parsed, since otherwise both `if not rolled.empty` concats are
skipped — and the z-score columns, with
`expected_arrival`/`actual_arrival` dropped at the end. -/
def mainColumns (inCols : List String) (anyValidTs : Bool) : List String :=
  (inCols ++ (baseDerivedCols ++
      ((if anyValidTs then rolledColumns else []) ++ zscoreColNames))).filter
    (fun c => !droppedCols.contains c)

theorem mapM_ok_length {α β : Type} {f : α → Except String β} :
    ∀ {l : List α} {ys : List β}, l.mapM f = Except.ok ys → ys.length = l.length := by
  intro l
  induction l with
  | nil =>
    intro ys h
    obtain rfl : ([] : List β) = ys := Except.ok.inj h
    rfl
  | cons a as ih =>
    intro ys h
    rw [List.mapM_cons] at h
    cases hfa : f a with
    | error m => rw [hfa] at h; exact absurd h (by simp [Bind.bind, Except.bind])
    | ok y =>
      rw [hfa] at h
      cases hmas : as.mapM f with
      | error m =>
        rw [hmas] at h
        exact absurd h (by simp [Bind.bind, Except.bind])
      | ok ys' =>
        rw [hmas] at h
        obtain rfl : y :: ys' = ys := Except.ok.inj h
        simp [ih hmas]

theorem map_ev_zip5 :
    ∀ (as : List Event) (bs cs ds es : List RollRow),
      as.length ≤ bs.length → as.length ≤ cs.length → as.length ≤ ds.length →
      as.length ≤ es.length →
      (zip5 mkOut as bs cs ds es).map OutRow.ev = as := by
  intro as
  induction as with
  | nil => intro bs cs ds es _ _ _ _; cases bs <;> cases cs <;> cases ds <;> cases es <;> rfl
  | cons a as ih =>
    intro bs cs ds es h1 h2 h3 h4
    cases bs with
    | nil => simp at h1
    | cons b bs =>
      cases cs with
      | nil => simp at h2
      | cons c cs =>
        cases ds with
        | nil => simp at h3
        | cons d ds =>
          cases es with
          | nil => simp at h4
          | cons e es =>
            simp only [zip5, List.map_cons]
            rw [ih bs cs ds es (by simpa using h1) (by simpa using h2)
              (by simpa using h3) (by simpa using h4)]
            rfl

/-- C7 (amended): the persisted feature table holds the input rows sorted
by timestamp (not in original order), with `expected_arrival` and
`actual_arrival` dropped; every other input column survives the final
drop; the derived columns are present when some timestamp parses, but the
sixteen rolled columns are absent when none does (the `rolled.empty`
guards skip both concats). -/
theorem c7_output_shape :
    (∀ (rows : List InRow) (out : List OutRow), mainPipeline rows = Except.ok out →
      (out.map OutRow.ev).Perm (rows.map loadPrepare) ∧
      List.Pairwise evLe (out.map OutRow.ev)) ∧
    (∀ (cols : List String) (b : Bool) (c : String), c ∈ cols → c ∉ droppedCols →
      c ∈ mainColumns cols b) ∧
    (∀ (cols : List String) (c : String),
      c ∈ baseDerivedCols ++ (rolledColumns ++ zscoreColNames) →
      c ∈ mainColumns cols true) ∧
    (∀ (cols : List String) (c : String), c ∈ rolledColumns → c ∉ cols →
      c ∉ mainColumns cols false) := by
  refine ⟨?_, ?_, ?_, ?_⟩
  · intro rows out hmain
    rw [mainPipeline] at hmain
    split at hmain
    · obtain rfl : (sortByTs (rows.map loadPrepare)).map
          (fun e => (⟨e, none⟩ : OutRow)) = out := Except.ok.inj hmain
      have hev : ((sortByTs (rows.map loadPrepare)).map
          (fun e => (⟨e, none⟩ : OutRow))).map OutRow.ev =
          sortByTs (rows.map loadPrepare) := by
        rw [List.map_map]
        exact List.map_id _
      rw [hev]
      exact ⟨List.perm_insertionSort _ _, List.sorted_insertionSort _ _⟩
    · cases ha : (rows.map loadPrepare).mapM
          (rollRowFor routeKey w7 (sortByTs (rows.map loadPrepare))) with
      | error m => rw [ha] at hmain; exact absurd hmain (by simp [Except.bind])
      | ok a =>
        rw [ha] at hmain
        cases hb : (rows.map loadPrepare).mapM
            (rollRowFor routeKey w30 (sortByTs (rows.map loadPrepare))) with
        | error m => rw [hb] at hmain; exact absurd hmain (by simp [Except.bind])
        | ok b =>
          rw [hb] at hmain
          cases hc : (rows.map loadPrepare).mapM
              (rollRowFor plantKey w7 (sortByTs (rows.map loadPrepare))) with
          | error m => rw [hc] at hmain; exact absurd hmain (by simp [Except.bind])
          | ok c =>
            rw [hc] at hmain
            cases hd : (rows.map loadPrepare).mapM
                (rollRowFor plantKey w30 (sortByTs (rows.map loadPrepare))) with
            | error m => rw [hd] at hmain; exact absurd hmain (by simp [Except.bind])
            | ok d =>
              rw [hd] at hmain
              obtain rfl : zip5 mkOut (sortByTs (rows.map loadPrepare)) a b c d = out :=
                Except.ok.inj hmain
              have hlen : (sortByTs (rows.map loadPrepare)).length =
                  (rows.map loadPrepare).length :=
                (List.perm_insertionSort _ _).length_eq
              have hev : (zip5 mkOut (sortByTs (rows.map loadPrepare)) a b c d).map
                  OutRow.ev = sortByTs (rows.map loadPrepare) :=
                map_ev_zip5 _ a b c d (by rw [hlen, mapM_ok_length ha])
                  (by rw [hlen, mapM_ok_length hb]) (by rw [hlen, mapM_ok_length hc])
                  (by rw [hlen, mapM_ok_length hd])
              rw [hev]
              exact ⟨List.perm_insertionSort _ _, List.sorted_insertionSort _ _⟩
  · intro cols b c hin hdrop
    exact List.mem_filter.mpr ⟨List.mem_append_left _ hin, by simp [hdrop]⟩
  · intro cols c hin
    have hall : ∀ x ∈ baseDerivedCols ++ (rolledColumns ++ zscoreColNames),
        x ∉ droppedCols := by decide
    exact List.mem_filter.mpr ⟨List.mem_append_right _ hin, by simp [hall c hin]⟩
  · intro cols c hin hcols hmem
    have hsplit := (List.mem_filter.mp hmem).1
    rcases List.mem_append.mp hsplit with h | h
    · exact hcols h
    · have hno : ∀ x ∈ rolledColumns,
          x ∉ baseDerivedCols ++ (([] : List String) ++ zscoreColNames) := by decide
      exact hno c hin h

def W7r0 : InRow := ⟨"B", "P", some day, some 0, some 60⟩

def W7r1 : InRow := ⟨"A", "P", some 0, some 0, some 120⟩

/-- The route column of the persisted table, in persisted row order. -/
def outRoutes (rows : List InRow) : List String :=
  match mainPipeline rows with
  | Except.ok out => out.map (fun o => o.ev.route)
  | Except.error _ => []

def inCols0 : List String :=
  ["route_id", "plant_id", "timestamp", "expected_arrival", "actual_arrival"]

/-- C7 counterexample: two input rows out of timestamp order (both with
parseable timestamps, so the rolled columns are attached).  The persisted
table reorders them (sorted by timestamp), and the original column
`expected_arrival` is dropped — contradicting both the order-preservation
and the no-column-removed clauses of the claim. -/
theorem c7_counterexample :
    outRoutes [W7r0, W7r1] = ["A", "B"] ∧
    [W7r0, W7r1].map InRow.route = ["B", "A"] ∧
    (["A", "B"] ≠ ["B", "A"]) ∧
    "expected_arrival" ∈ inCols0 ∧ "expected_arrival" ∉ mainColumns inCols0 true :=
  ⟨rfl, rfl, by decide, by decide, by decide⟩

/-- Witness for C7's amended theorem at the two-row dataset, plus concrete
column instantiations of the three column clauses. -/
theorem c7_output_shape_witness :
    ((((mainPipeline [W7r0, W7r1]).toOption.getD []).map OutRow.ev).Perm
        ([W7r0, W7r1].map loadPrepare) ∧
      List.Pairwise evLe (((mainPipeline [W7r0, W7r1]).toOption.getD []).map OutRow.ev)) ∧
    "route_id" ∈ mainColumns inCols0 true ∧
    "route_id_zscore" ∈ mainColumns inCols0 true ∧
    "route_id_mean_7D" ∉ mainColumns inCols0 false :=
  ⟨c7_output_shape.1 [W7r0, W7r1] ((mainPipeline [W7r0, W7r1]).toOption.getD []) rfl,
    c7_output_shape.2.1 inCols0 true "route_id" (by decide) (by decide),
    c7_output_shape.2.2.1 inCols0 "route_id_zscore" (by decide),
    c7_output_shape.2.2.2 inCols0 "route_id_mean_7D" (by decide) (by decide)⟩
end Bakery
